import Mathlib

/-!
Verification of the MillisTaskManager task scheduler
(src/MillisTaskManager/c/MillisTaskManager.c) against its design
specification.

The C module keeps a singly linked list of task records.  We embed it
shallowly: heap memory is a partial map from addresses (Nat) to task
records, a null-or-valid pointer is an `Option Nat`, and each `while(1)`
pointer-chasing loop of the C source becomes a fuel-indexed recursive
function that returns `none` when it either exhausts its fuel or
dereferences an address that is not allocated (the C undefined behaviour).
The registry struct `TaskManager_t` is passed BY VALUE in the C source;
we mirror that by passing the struct as a plain value and returning the
callee's local copy explicitly where the C code mutates it, while the
heap (shared mutable memory) is threaded through every operation.
-/

namespace MTM

/-- Task record, mirroring `Task_t` of the C source.  The header with the
field types is not part of the given sources; following the `.c` file and
the specification, `Function` is the opaque function identity, `Time` the
interval in ms, `State` the enabled flag, `TimePrev` the last-fire tick,
`TimeCost` the measured cost, `TimeError` the signed drift, `Next` the
successor pointer (`none` = NULL). -/
structure Task where
  Function : Nat
  Time : Nat
  State : Bool
  TimePrev : Nat
  TimeCost : Nat
  TimeError : Int
  Next : Option Nat
deriving Repr, DecidableEq

/-- Heap memory: a partial map from addresses to task records.
`h a = none` means address `a` is not allocated (or has been freed). -/
def Heap : Type := Nat → Option Task

/-- Write (or allocate) the record `t` at address `a`. -/
def hWrite (h : Heap) (a : Nat) (t : Task) : Heap :=
  fun b => if b = a then some t else h b

/-- Free the record at address `a`. -/
def hErase (h : Heap) (a : Nat) : Heap :=
  fun b => if b = a then none else h b

/-- The empty heap. -/
def hEmpty : Heap := fun _ => none

/-- Registry struct, mirroring `TaskManager_t`: priority flag plus head
and tail pointers of the task list. -/
structure TaskManager where
  PriorityEnable : Bool
  Head : Option Nat
  Tail : Option Nat
deriving Repr, DecidableEq

/-- The list of addresses reachable from pointer `p` by following `Next`
links until NULL, computed with `fuel` dereference steps.  `none` means
the walk either ran out of fuel or dereferenced an unallocated address;
`some l` certifies a finite, NULL-terminated (hence acyclic) chain. -/
def chainFrom (h : Heap) : Option Nat → Nat → Option (List Nat)
  | none, _ => some []
  | some _, 0 => none
  | some a, fuel + 1 =>
    match h a with
    | none => none
    | some t => (chainFrom h t.Next fuel).map (a :: ·)

/-- `ManagerCreate` of the C source: receives a manager struct by value,
sets the priority flag and NULL head/tail, and returns it. -/
def ManagerCreate (TaskManager : TaskManager) (priorityEnable : Bool) :
    MTM.TaskManager :=
  { TaskManager with
    PriorityEnable := priorityEnable
    Head := none
    Tail := none }

/-- The teardown loop of `ManagerDelete` in the C source, from current
pointer `now`.  Each iteration caches the current node (`now_del = now`),
reads its successor (`now = now->Next`) and only then frees it
(`free(now_del)`): the successor link is read from still-allocated
memory.  Returns the heap after all frees, or `none` if the walk ran out
of fuel or dereferenced an unallocated address. -/
def ManagerDelete (h : Heap) : Option Nat → Nat → Option Heap
  | none, _ => some h
  | some _, 0 => none
  | some a, fuel + 1 =>
    match h a with
    | none => none
    | some t => ManagerDelete (hErase h a) t.Next fuel

/-- Teardown as the specification DESCRIBES the C source ("releases a
node and then reads its (now invalid) successor"): the node is freed
first and its `Next` link is then read from the freed address.  Declared
only to compare the spec's description of `ManagerDelete` with the
actual code (claim C3); it is not the code's behaviour. -/
def ManagerDeleteSpecClaim (h : Heap) : Option Nat → Nat → Option Heap
  | none, _ => some h
  | some _, 0 => none
  | some a, fuel + 1 =>
    let h' := hErase h a
    match h' a with
    | none => none
    | some t => ManagerDeleteSpecClaim h' t.Next fuel

/-- The search loop of `TaskFind`: walk from `p`, stop at the first node
whose `Function` equals `func` (returning its address) or at NULL
(returning `none` = not found).  The outer `Option` is `none` when the
walk runs out of fuel or dereferences an unallocated address. -/
def findLoop (h : Heap) (func : Nat) : Option Nat → Nat → Option (Option Nat)
  | none, _ => some none
  | some _, 0 => none
  | some a, fuel + 1 =>
    match h a with
    | none => none
    | some t =>
      if t.Function = func then some (some a)
      else findLoop h func t.Next fuel

/-- `TaskFind` of the C source: linear scan of the list from the
manager's head for the node with the given function identity. -/
def TaskFind (h : Heap) (TaskManager : TaskManager) (func : Nat)
    (fuel : Nat) : Option (Option Nat) :=
  findLoop h func TaskManager.Head fuel

/-- The search loop of `GetPrev`: walk from `p` carrying the previous
node `prev`; when the current pointer equals `task` (a pointer
comparison, no dereference) return `prev`; at NULL return `none`
(`retval` stays NULL in the C source). -/
def prevLoop (h : Heap) (task : Nat) :
    Option Nat → Option Nat → Nat → Option (Option Nat)
  | none, _, _ => some none
  | some _, _, 0 => none
  | some a, prev, fuel + 1 =>
    if a = task then some prev
    else
      match h a with
      | none => none
      | some t => prevLoop h task t.Next (some a) fuel

/-- `GetPrev` of the C source: predecessor of `task` in the list. -/
def GetPrev (h : Heap) (TaskManager : TaskManager) (task : Nat)
    (fuel : Nat) : Option (Option Nat) :=
  prevLoop h task TaskManager.Head none fuel

/-- The record a fresh registration initialises, field for field as in
`TaskRegister` of the C source: the given function, interval and state,
with `TimePrev`, `TimeCost` and `TimeError` zeroed and a NULL `Next`. -/
def freshTask (func timeMs : Nat) (state : Bool) : Task :=
  { Function := func, Time := timeMs, State := state, TimePrev := 0,
    TimeCost := 0, TimeError := 0, Next := none }

/-- `TaskRegister` of the C source.  `alloc` models `malloc`: `some a`
means the allocator hands out address `a` (callers supply a genuinely
fresh one, `h a = none`), `none` means allocation fails and the C code
returns NULL.  The manager struct is received by value; the C function
returns only the task pointer, so the updated local struct is exposed
here as an extra component of the result for reasoning, while the
caller's own struct is untouched.  Result `none` models undefined
behaviour (a loop fault inside `TaskFind` or the `Tail->Next` write
dereferencing NULL or unallocated memory). -/
def TaskRegister (h : Heap) (tm : TaskManager) (func : Nat) (timeMs : Nat)
    (state : Bool) (alloc : Option Nat) (fuel : Nat) :
    Option (Heap × TaskManager × Option Nat) :=
  match TaskFind h tm func fuel with
  | none => none
  | some (some a) =>
    match h a with
    | none => none
    | some t =>
      some (hWrite h a { t with Time := timeMs, State := state }, tm, some a)
  | some none =>
    match alloc with
    | none => some (h, tm, none)
    | some a =>
      let t : Task := freshTask func timeMs state
      let h1 := hWrite h a t
      match tm.Head with
      | none => some (h1, { tm with Head := some a, Tail := some a }, some a)
      | some _ =>
        match tm.Tail with
        | none => none
        | some tl =>
          match h1 tl with
          | none => none
          | some tt =>
            some (hWrite h1 tl { tt with Next := some a },
                  { tm with Tail := some a }, some a)

/-- `TaskLogout` of the C source.  Its body is EMPTY (`bool
TaskLogout(TaskFunction_t func) { }`): it does not even receive the
manager, performs no removal and no heap mutation, and falls off the end
of a `bool` function, so its return value is indeterminate.  We model
the (absent) state effect: the heap is returned unchanged. -/
def TaskLogout (h : Heap) (func : Nat) : Heap := h

/-- Modelled from the spec: the dispatcher is absent from the given
sources (no `Running` function appears in the `.c` file), so the
per-task firing step follows section 4.2 of the specification.
`clamp x lo hi` bounds `x` to `[lo, hi]`. -/
def clamp (x lo hi : Int) : Int := max lo (min hi x)

/-- Modelled from the spec: the per-task decision of the dispatcher
(spec section 4.2), absent from the given sources.  For an enabled task,
`elapsed = now_tick - last_fire_tick`; the task is due when
`elapsed + drift_ms >= interval_ms`; on firing it records the measured
cost, sets `drift_ms = clamp(elapsed - interval_ms, -interval_ms,
interval_ms)` and `last_fire_tick = now_tick`; otherwise nothing
changes. -/
def stepTask (t : Task) (now : Nat) (cost : Nat) : Task :=
  if t.State then
    if (t.Time : Int) ≤ ((now : Int) - (t.TimePrev : Int)) + t.TimeError then
      { t with
        TimeCost := cost
        TimeError := clamp (((now : Int) - (t.TimePrev : Int)) - (t.Time : Int))
          (-(t.Time : Int)) (t.Time : Int)
        TimePrev := now }
    else t
  else t

/-- Modelled from the spec: the dispatcher `run(registry, now_tick)`
(spec sections 4.2 and 6), absent from the given sources.  It walks the
task list in sequence order and applies `stepTask` to each node;
`cost` supplies the measured execution cost per function identity. -/
def run (h : Heap) (cost : Nat → Nat) (now : Nat) :
    Option Nat → Nat → Option Heap
  | none, _ => some h
  | some _, 0 => none
  | some a, fuel + 1 =>
    match h a with
    | none => none
    | some t =>
      run (hWrite h a (stepTask t now (cost t.Function))) cost now t.Next fuel

/-- A task with identity `f` is registered at address `b` of chain `l`. -/
def isReg (h : Heap) (l : List Nat) (f : Nat) (b : Nat) : Prop :=
  b ∈ l ∧ ∃ t, h b = some t ∧ t.Function = f

/-- Well-formed registry: the head pointer reaches NULL through
allocated nodes in exactly `l.length` steps visiting the addresses `l`,
the tail pointer is the last of them, and function identities are unique
along the chain. -/
structure Valid (h : Heap) (tm : TaskManager) (l : List Nat) : Prop where
  chain : chainFrom h tm.Head l.length = some l
  tailOk : tm.Tail = l.getLast?
  uniq : ∀ b ∈ l, ∀ c ∈ l, ∀ t u, h b = some t → h c = some u →
    t.Function = u.Function → b = c

/-! Basic lemmas about chain walks. -/

lemma chainFrom_none (h : Heap) (fuel : Nat) :
    chainFrom h none fuel = some [] := by
  cases fuel <;> rfl

lemma chainFrom_some (h : Heap) (a : Nat) (fuel : Nat) :
    chainFrom h (some a) (fuel + 1) =
      match h a with
      | none => none
      | some t => (chainFrom h t.Next fuel).map (a :: ·) := rfl

lemma chainFrom_cons (h : Heap) (a : Nat) (t : Task) (fuel : Nat)
    (ht : h a = some t) :
    chainFrom h (some a) (fuel + 1) = (chainFrom h t.Next fuel).map (a :: ·) := by
  rw [chainFrom_some, ht]

lemma chainFrom_dangling (h : Heap) (a : Nat) (fuel : Nat)
    (ht : h a = none) : chainFrom h (some a) (fuel + 1) = none := by
  rw [chainFrom_some, ht]

lemma chainFrom_some_elim {h : Heap} {a : Nat} {fuel : Nat} {l : List Nat}
    (hc : chainFrom h (some a) fuel = some l) :
    ∃ f' t l', fuel = f' + 1 ∧ h a = some t ∧
      chainFrom h t.Next f' = some l' ∧ l = a :: l' := by
  cases fuel with
  | zero => simp [chainFrom] at hc
  | succ f' =>
    cases ht : h a with
    | none => rw [chainFrom_dangling h a f' ht] at hc; simp at hc
    | some t =>
      rw [chainFrom_cons h a t f' ht] at hc
      cases hc' : chainFrom h t.Next f' with
      | none => rw [hc'] at hc; simp at hc
      | some l' =>
        rw [hc'] at hc
        simp only [Option.map_some', Option.some.injEq] at hc
        exact ⟨f', t, l', rfl, rfl, hc', hc.symm⟩

lemma chainFrom_mono {h : Heap} {p : Option Nat} {f g : Nat} {l : List Nat}
    (hc : chainFrom h p f = some l) (hfg : f ≤ g) :
    chainFrom h p g = some l := by
  induction f generalizing p l g with
  | zero =>
    cases p with
    | none =>
      simp [chainFrom] at hc
      subst hc; exact chainFrom_none h g
    | some a => simp [chainFrom] at hc
  | succ f ih =>
    cases p with
    | none =>
      simp [chainFrom_none] at hc
      subst hc; exact chainFrom_none h g
    | some a =>
      obtain ⟨f', t, l', hf', ht, hc', hl⟩ := chainFrom_some_elim hc
      rw [show f' = f by omega] at hc'
      cases g with
      | zero => omega
      | succ g' =>
        have hg : f ≤ g' := by omega
        rw [chainFrom_cons h a t g' ht, ih hc' hg, hl]
        rfl

lemma chainFrom_nil {h : Heap} {p : Option Nat} {f : Nat}
    (hc : chainFrom h p f = some []) : p = none := by
  cases p with
  | none => rfl
  | some a =>
    obtain ⟨f', t, l', _, _, _, hl⟩ := chainFrom_some_elim hc
    simp at hl

lemma chainFrom_unique {h : Heap} {p : Option Nat} {f g : Nat}
    {l m : List Nat} (hl : chainFrom h p f = some l)
    (hm : chainFrom h p g = some m) : l = m := by
  have h1 := chainFrom_mono hl (Nat.le_max_left f g)
  have h2 := chainFrom_mono hm (Nat.le_max_right f g)
  rw [h1] at h2
  exact (Option.some.injEq _ _ ▸ h2)

lemma chainFrom_mem_heap {h : Heap} {p : Option Nat} {f : Nat}
    {l : List Nat} (hc : chainFrom h p f = some l) :
    ∀ b ∈ l, ∃ t, h b = some t := by
  induction f generalizing p l with
  | zero =>
    cases p with
    | none => simp [chainFrom] at hc; subst hc; simp
    | some a => simp [chainFrom] at hc
  | succ f ih =>
    cases p with
    | none => simp [chainFrom_none] at hc; subst hc; simp
    | some a =>
      obtain ⟨f', t, l', hf', ht, hc', hl⟩ := chainFrom_some_elim hc
      rw [show f' = f by omega] at hc'
      subst hl
      intro b hb
      rcases List.mem_cons.mp hb with hb | hb
      · subst hb; exact ⟨t, ht⟩
      · exact ih hc' b hb

lemma chainFrom_mem_suffix {h : Heap} {p : Option Nat} {f : Nat}
    {l : List Nat} (hc : chainFrom h p f = some l) :
    ∀ b ∈ l, ∃ s, chainFrom h (some b) f = some (b :: s) ∧
      s.length < l.length := by
  induction f generalizing p l with
  | zero =>
    cases p with
    | none => simp [chainFrom] at hc; subst hc; simp
    | some a => simp [chainFrom] at hc
  | succ f ih =>
    cases p with
    | none => simp [chainFrom_none] at hc; subst hc; simp
    | some a =>
      obtain ⟨f', t, l', hf', ht, hc', hl⟩ := chainFrom_some_elim hc
      rw [show f' = f by omega] at hc'
      subst hl
      intro b hb
      rcases List.mem_cons.mp hb with hb | hb
      · subst hb
        exact ⟨l', hc, by simp⟩
      · obtain ⟨s, hs, hlen⟩ := ih hc' b hb
        refine ⟨s, chainFrom_mono hs (Nat.le_succ f), ?_⟩
        simp only [List.length_cons]
        omega

lemma chainFrom_nodup {h : Heap} {p : Option Nat} {f : Nat}
    {l : List Nat} (hc : chainFrom h p f = some l) : l.Nodup := by
  induction f generalizing p l with
  | zero =>
    cases p with
    | none => simp [chainFrom] at hc; subst hc; simp
    | some a => simp [chainFrom] at hc
  | succ f ih =>
    cases p with
    | none => simp [chainFrom_none] at hc; subst hc; simp
    | some a =>
      obtain ⟨f', t, l', hf', ht, hc', hl⟩ := chainFrom_some_elim hc
      rw [show f' = f by omega] at hc'
      subst hl
      refine List.nodup_cons.mpr ⟨?_, ih hc'⟩
      intro ha
      obtain ⟨s, hs, hlen⟩ := chainFrom_mem_suffix hc' a ha
      have hu := chainFrom_unique hc (chainFrom_mono hs (Nat.le_succ f))
      have he : l' = s := by simpa using hu
      rw [he] at hlen
      omega

lemma chainFrom_congr_mem {h h' : Heap} {p : Option Nat} {f : Nat}
    {l : List Nat} (hc : chainFrom h p f = some l)
    (hh : ∀ b ∈ l, h' b = h b) : chainFrom h' p f = some l := by
  induction f generalizing p l with
  | zero =>
    cases p with
    | none => simp [chainFrom] at hc ⊢; exact hc
    | some a => simp [chainFrom] at hc
  | succ f ih =>
    cases p with
    | none => simp [chainFrom_none] at hc ⊢; exact hc
    | some a =>
      obtain ⟨f', t, l', hf', ht, hc', hl⟩ := chainFrom_some_elim hc
      rw [show f' = f by omega] at hc'
      subst hl
      have hta : h' a = some t := by rw [hh a (by simp), ht]
      rw [chainFrom_cons h' a t f hta,
        ih hc' (fun b hb => hh b (by simp [hb]))]
      rfl

/-! Heap lookup lemmas and reduction equations for the loops. -/

lemma hWrite_self (h : Heap) (a : Nat) (t : Task) : hWrite h a t a = some t := by
  simp [hWrite]

lemma hWrite_ne (h : Heap) (a : Nat) (t : Task) {b : Nat} (hba : b ≠ a) :
    hWrite h a t b = h b := by
  simp [hWrite, hba]

lemma hErase_self (h : Heap) (a : Nat) : hErase h a a = none := by
  simp [hErase]

lemma hErase_ne (h : Heap) (a : Nat) {b : Nat} (hba : b ≠ a) :
    hErase h a b = h b := by
  simp [hErase, hba]

lemma ManagerDelete_none (h : Heap) (fuel : Nat) :
    ManagerDelete h none fuel = some h := by
  cases fuel <;> rfl

lemma ManagerDelete_cons (h : Heap) (a : Nat) (t : Task) (fuel : Nat)
    (ht : h a = some t) :
    ManagerDelete h (some a) (fuel + 1) = ManagerDelete (hErase h a) t.Next fuel := by
  show (match h a with
    | none => none
    | some t => ManagerDelete (hErase h a) t.Next fuel) = _
  rw [ht]

lemma findLoop_none (h : Heap) (func : Nat) (fuel : Nat) :
    findLoop h func none fuel = some none := by
  cases fuel <;> rfl

lemma findLoop_cons (h : Heap) (func a : Nat) (t : Task) (fuel : Nat)
    (ht : h a = some t) :
    findLoop h func (some a) (fuel + 1) =
      if t.Function = func then some (some a)
      else findLoop h func t.Next fuel := by
  show (match h a with
    | none => none
    | some t => if t.Function = func then some (some a)
                else findLoop h func t.Next fuel) = _
  rw [ht]

lemma prevLoop_none (h : Heap) (task : Nat) (prev : Option Nat) (fuel : Nat) :
    prevLoop h task none prev fuel = some none := by
  cases fuel <;> rfl

lemma prevLoop_cons (h : Heap) (task a : Nat) (t : Task) (prev : Option Nat)
    (fuel : Nat) (hne : a ≠ task) (ht : h a = some t) :
    prevLoop h task (some a) prev (fuel + 1) =
      prevLoop h task t.Next (some a) fuel := by
  show (if a = task then some prev
    else match h a with
      | none => none
      | some t => prevLoop h task t.Next (some a) fuel) = _
  rw [if_neg hne, ht]

/-! Chain preservation under heap edits. -/

lemma getLast?_mem {l : List Nat} {x : Nat} (hx : l.getLast? = some x) :
    x ∈ l := by
  obtain ⟨hne, he⟩ := List.mem_getLast?_eq_getLast (Option.mem_def.mpr hx)
  subst he
  exact List.getLast_mem hne

lemma chainFrom_congr_next {h h' : Heap} {p : Option Nat} {f : Nat}
    {l : List Nat} (hc : chainFrom h p f = some l)
    (hh : ∀ b ∈ l, (h' b).map Task.Next = (h b).map Task.Next) :
    chainFrom h' p f = some l := by
  induction f generalizing p l with
  | zero =>
    cases p with
    | none => simp [chainFrom] at hc ⊢; exact hc
    | some a => simp [chainFrom] at hc
  | succ f ih =>
    cases p with
    | none => simp [chainFrom_none] at hc ⊢; exact hc
    | some a =>
      obtain ⟨f', t, l', hf', ht, hc', hl⟩ := chainFrom_some_elim hc
      rw [show f' = f by omega] at hc'
      subst hl
      have hnext := hh a (by simp)
      rw [ht] at hnext
      obtain ⟨t', ht', htn⟩ := Option.map_eq_some'.mp hnext
      rw [chainFrom_cons h' a t' f ht', htn,
        ih hc' (fun b hb => hh b (by simp [hb]))]
      rfl

lemma chainFrom_snoc {h : Heap} {p : Option Nat} {f : Nat} {l : List Nat}
    {a tl : Nat} {ta tt : Task}
    (hc : chainFrom h p f = some l) (hne : l ≠ [])
    (hlast : l.getLast? = some tl) (hfresh : h a = none)
    (htl : h tl = some tt) (hta : ta.Next = none) :
    chainFrom (hWrite (hWrite h a ta) tl { tt with Next := some a }) p (f + 1)
      = some (l ++ [a]) := by
  have hatl : a ≠ tl := fun he => by rw [he, htl] at hfresh; exact Option.noConfusion hfresh
  induction f generalizing p l with
  | zero =>
    cases p with
    | none => simp [chainFrom] at hc; subst hc; exact absurd rfl hne
    | some b => simp [chainFrom] at hc
  | succ f ih =>
    cases p with
    | none =>
      simp [chainFrom_none] at hc
      subst hc; exact absurd rfl hne
    | some b =>
      obtain ⟨f', t, l', hf', ht, hc', hl⟩ := chainFrom_some_elim hc
      rw [show f' = f by omega] at hc'
      subst hl
      have hba : b ≠ a := fun he => by rw [he, hfresh] at ht; exact Option.noConfusion ht
      cases l' with
      | nil =>
        have hbtl : b = tl := by simpa using hlast
        rw [hbtl]
        have h2b : hWrite (hWrite h a ta) tl { tt with Next := some a } tl =
            some { tt with Next := some a } := hWrite_self _ _ _
        rw [chainFrom_cons _ tl { tt with Next := some a } (f + 1) h2b]
        have h2a : hWrite (hWrite h a ta) tl { tt with Next := some a } a =
            some ta := by
          rw [hWrite_ne _ _ _ hatl, hWrite_self]
        rw [show ({ tt with Next := some a } : Task).Next = some a from rfl]
        rw [chainFrom_cons _ a ta f h2a, hta, chainFrom_none]
        rfl
      | cons c l'' =>
        have hlast' : (c :: l'').getLast? = some tl := by
          rw [List.getLast?_cons_cons] at hlast
          exact hlast
        have hbtl : b ≠ tl := by
          intro he
          have hnd := chainFrom_nodup hc
          have : tl ∈ c :: l'' := getLast?_mem hlast'
          rw [← he] at this
          exact (List.nodup_cons.mp hnd).1 this
        have h2b : hWrite (hWrite h a ta) tl { tt with Next := some a } b =
            some t := by
          rw [hWrite_ne _ _ _ hbtl, hWrite_ne _ _ _ hba, ht]
        rw [chainFrom_cons _ b t (f + 1) h2b,
          ih hc' (List.cons_ne_nil c l'') hlast']
        rfl

/-! Correctness and termination of the search loops. -/

lemma findLoop_not_found {h : Heap} {p : Option Nat} {f : Nat} {l : List Nat}
    {func : Nat} (hc : chainFrom h p f = some l)
    (hno : ∀ b ∈ l, ∀ t, h b = some t → t.Function ≠ func) :
    findLoop h func p f = some none := by
  induction f generalizing p l with
  | zero =>
    cases p with
    | none => exact findLoop_none h func 0
    | some a => simp [chainFrom] at hc
  | succ f ih =>
    cases p with
    | none => exact findLoop_none h func (f + 1)
    | some a =>
      obtain ⟨f', t, l', hf', ht, hc', hl⟩ := chainFrom_some_elim hc
      rw [show f' = f by omega] at hc'
      subst hl
      rw [findLoop_cons h func a t f ht,
        if_neg (hno a (by simp) t ht)]
      exact ih hc' (fun b hb u hu => hno b (by simp [hb]) u hu)

lemma findLoop_found {h : Heap} {p : Option Nat} {f : Nat} {l : List Nat}
    {func b : Nat} {tb : Task} (hc : chainFrom h p f = some l)
    (hb : b ∈ l) (htb : h b = some tb) (hfn : tb.Function = func)
    (huniq : ∀ c ∈ l, ∀ u, h c = some u → u.Function = func → c = b) :
    findLoop h func p f = some (some b) := by
  induction f generalizing p l with
  | zero =>
    cases p with
    | none => simp [chainFrom] at hc; subst hc; simp at hb
    | some a => simp [chainFrom] at hc
  | succ f ih =>
    cases p with
    | none => simp [chainFrom_none] at hc; subst hc; simp at hb
    | some a =>
      obtain ⟨f', t, l', hf', ht, hc', hl⟩ := chainFrom_some_elim hc
      rw [show f' = f by omega] at hc'
      subst hl
      rw [findLoop_cons h func a t f ht]
      by_cases hfa : t.Function = func
      · rw [if_pos hfa, huniq a (by simp) t ht hfa]
      · rw [if_neg hfa]
        have hba : b ≠ a := by
          intro he
          rw [he, ht] at htb
          have : t = tb := Option.some.inj htb
          rw [← this] at hfn
          exact hfa hfn
        have hb' : b ∈ l' := by
          rcases List.mem_cons.mp hb with he | hm
          · exact absurd he hba
          · exact hm
        exact ih hc' hb' (fun c hcm u hu hf => huniq c (by simp [hcm]) u hu hf)

lemma findLoop_total {h : Heap} {p : Option Nat} {f : Nat} {l : List Nat}
    {func : Nat} (hc : chainFrom h p f = some l) :
    ∃ r, findLoop h func p f = some r := by
  induction f generalizing p l with
  | zero =>
    cases p with
    | none => exact ⟨none, findLoop_none h func 0⟩
    | some a => simp [chainFrom] at hc
  | succ f ih =>
    cases p with
    | none => exact ⟨none, findLoop_none h func (f + 1)⟩
    | some a =>
      obtain ⟨f', t, l', hf', ht, hc', hl⟩ := chainFrom_some_elim hc
      rw [show f' = f by omega] at hc'
      rw [findLoop_cons h func a t f ht]
      by_cases hfa : t.Function = func
      · exact ⟨some a, by rw [if_pos hfa]⟩
      · obtain ⟨r, hr⟩ := ih hc'
        exact ⟨r, by rw [if_neg hfa]; exact hr⟩

lemma prevLoop_total {h : Heap} {p : Option Nat} {f : Nat} {l : List Nat}
    {tgt : Nat} {prev : Option Nat} (hc : chainFrom h p f = some l) :
    ∃ r, prevLoop h tgt p prev f = some r := by
  induction f generalizing p l prev with
  | zero =>
    cases p with
    | none => exact ⟨none, prevLoop_none h tgt prev 0⟩
    | some a => simp [chainFrom] at hc
  | succ f ih =>
    cases p with
    | none => exact ⟨none, prevLoop_none h tgt prev (f + 1)⟩
    | some a =>
      obtain ⟨f', t, l', hf', ht, hc', hl⟩ := chainFrom_some_elim hc
      rw [show f' = f by omega] at hc'
      by_cases ha : a = tgt
      · refine ⟨prev, ?_⟩
        show (if a = tgt then some prev
          else match h a with
            | none => none
            | some t => prevLoop h tgt t.Next (some a) f) = some prev
        rw [if_pos ha]
      · obtain ⟨r, hr⟩ := ih hc'
        exact ⟨r, by rw [prevLoop_cons h tgt a t prev f ha ht]; exact hr⟩

/-- Teardown frees exactly the nodes of the chain: it completes without
ever dereferencing a freed address, each chain node ends up unallocated,
and every other address is untouched. -/
lemma ManagerDelete_ok {h : Heap} {p : Option Nat} {f : Nat} {l : List Nat}
    (hc : chainFrom h p f = some l) :
    ∃ h', ManagerDelete h p f = some h' ∧
      (∀ b ∈ l, h' b = none) ∧ (∀ c, c ∉ l → h' c = h c) := by
  induction f generalizing h p l with
  | zero =>
    cases p with
    | none =>
      simp [chainFrom] at hc
      subst hc
      exact ⟨h, ManagerDelete_none h 0, by simp, fun c _ => rfl⟩
    | some a => simp [chainFrom] at hc
  | succ f ih =>
    cases p with
    | none =>
      simp [chainFrom_none] at hc
      subst hc
      exact ⟨h, ManagerDelete_none h (f + 1), by simp, fun c _ => rfl⟩
    | some a =>
      obtain ⟨f', t, l', hf', ht, hc', hl⟩ := chainFrom_some_elim hc
      rw [show f' = f by omega] at hc'
      subst hl
      have hnd := chainFrom_nodup hc
      have hanl : a ∉ l' := (List.nodup_cons.mp hnd).1
      have hc'' : chainFrom (hErase h a) t.Next f = some l' :=
        chainFrom_congr_mem hc'
          (fun b hb => hErase_ne h a (fun he => hanl (he ▸ hb)))
      obtain ⟨h', hdel, hfreed, hkept⟩ := ih hc''
      refine ⟨h', ?_, ?_, ?_⟩
      · rw [ManagerDelete_cons h a t f ht]; exact hdel
      · intro b hb
        rcases List.mem_cons.mp hb with he | hm
        · subst he
          rw [hkept b hanl, hErase_self]
        · exact hfreed b hm
      · intro c hcm
        have hca : c ≠ a := fun he => hcm (by simp [he])
        rw [hkept c (fun hm => hcm (by simp [hm])), hErase_ne h a hca]

/-! Characterisation of `TaskRegister` on well-formed registries. -/

lemma register_existing {h : Heap} {tm : TaskManager} {l : List Nat}
    {func b : Nat} {tb : Task} {timeMs : Nat} {st : Bool}
    {alloc : Option Nat} {fuel : Nat}
    (hv : Valid h tm l) (hb : b ∈ l) (htb : h b = some tb)
    (hfn : tb.Function = func) (hfuel : l.length ≤ fuel) :
    TaskRegister h tm func timeMs st alloc fuel =
      some (hWrite h b { tb with Time := timeMs, State := st }, tm, some b) := by
  have hc := chainFrom_mono hv.chain hfuel
  have hfind : TaskFind h tm func fuel = some (some b) :=
    findLoop_found hc hb htb hfn
      (fun c hcm u hu hf => hv.uniq c hcm b hb u tb hu htb (by rw [hf, hfn]))
  simp only [TaskRegister, hfind, htb]

lemma register_oom {h : Heap} {tm : TaskManager} {l : List Nat}
    {func timeMs : Nat} {st : Bool} {fuel : Nat}
    (hv : Valid h tm l)
    (hno : ∀ b ∈ l, ∀ t, h b = some t → t.Function ≠ func)
    (hfuel : l.length ≤ fuel) :
    TaskRegister h tm func timeMs st none fuel = some (h, tm, none) := by
  have hfind : TaskFind h tm func fuel = some none :=
    findLoop_not_found (chainFrom_mono hv.chain hfuel) hno
  simp only [TaskRegister, hfind]

lemma register_fresh_empty {h : Heap} {tm : TaskManager}
    {func timeMs : Nat} {st : Bool} {a fuel : Nat}
    (hv : Valid h tm []) :
    TaskRegister h tm func timeMs st (some a) fuel =
      some (hWrite h a (freshTask func timeMs st),
            { tm with Head := some a, Tail := some a }, some a) := by
  have hhead : tm.Head = none := chainFrom_nil hv.chain
  have hfind : TaskFind h tm func fuel = some none := by
    unfold TaskFind
    rw [hhead]
    exact findLoop_none h func fuel
  simp only [TaskRegister, hfind, hhead]

lemma register_fresh_cons {h : Heap} {tm : TaskManager} {l : List Nat}
    {func timeMs : Nat} {st : Bool} {a tl fuel : Nat} {tt : Task}
    (hv : Valid h tm l) (hne : l ≠ [])
    (hno : ∀ b ∈ l, ∀ t, h b = some t → t.Function ≠ func)
    (hfresh : h a = none) (hfuel : l.length ≤ fuel)
    (hlast : l.getLast? = some tl) (htt : h tl = some tt) :
    TaskRegister h tm func timeMs st (some a) fuel =
      some (hWrite (hWrite h a (freshTask func timeMs st)) tl
              { tt with Next := some a },
            { tm with Tail := some a }, some a) := by
  have hfind : TaskFind h tm func fuel = some none :=
    findLoop_not_found (chainFrom_mono hv.chain hfuel) hno
  obtain ⟨hd, hhd⟩ : ∃ hd, tm.Head = some hd := by
    cases hh : tm.Head with
    | none =>
      have := hv.chain
      rw [hh, chainFrom_none] at this
      have : l = [] := by simpa using this.symm
      exact absurd this hne
    | some hd => exact ⟨hd, rfl⟩
  have htail : tm.Tail = some tl := by rw [hv.tailOk, hlast]
  have htla : tl ≠ a := by
    intro he
    rw [he, hfresh] at htt
    exact Option.noConfusion htt
  have h1tl : hWrite h a (freshTask func timeMs st) tl = some tt := by
    rw [hWrite_ne _ _ _ htla, htt]
  simp only [TaskRegister, hfind, hhd, htail, h1tl]

/-- The free-then-read teardown the specification describes faults on
the very first node of any non-empty list: the successor link is read
from the address that was just freed. -/
lemma ManagerDeleteSpecClaim_cons (h : Heap) (a : Nat) (f : Nat) :
    ManagerDeleteSpecClaim h (some a) (f + 1) = none := by
  show (match hErase h a a with
    | none => none
    | some t => ManagerDeleteSpecClaim (hErase h a) t.Next f) = none
  rw [hErase_self]

/-! Concrete fixtures for closed-term checks. -/

/-- A concrete task record: function identity 5, interval 100 ms,
enabled, freshly registered. -/
def task1 : Task :=
  { Function := 5, Time := 100, State := true, TimePrev := 0,
    TimeCost := 0, TimeError := 0, Next := none }

/-- A concrete heap holding exactly `task1` at address 1. -/
def heap1 : Heap := fun b => if b = 1 then some task1 else none

/-- A concrete registry whose list is the single node at address 1. -/
def tm1 : TaskManager := { PriorityEnable := false, Head := some 1, Tail := some 1 }

/-- A freshly created empty registry (note `ManagerCreate` discards the
incoming struct's head and tail). -/
def tm0 : TaskManager := ManagerCreate ⟨true, some 7, some 8⟩ false

lemma valid_heap1 : Valid heap1 tm1 [1] := by
  refine ⟨by decide, by decide, ?_⟩
  intro b hb c hc t u htb htc hf
  have hb1 : b = 1 := by simpa using hb
  have hc1 : c = 1 := by simpa using hc
  rw [hb1, hc1]

lemma valid_empty : Valid hEmpty tm0 [] := by
  refine ⟨by decide, by decide, ?_⟩
  intro b hb
  simp at hb

lemma hWrite_map_next {h : Heap} {b : Nat} {tb : Task} (htb : h b = some tb)
    (tb' : Task) (hn : tb'.Next = tb.Next) :
    ∀ c, (hWrite h b tb' c).map Task.Next = (h c).map Task.Next := by
  intro c
  by_cases hcb : c = b
  · rw [hcb, hWrite_self, htb, Option.map_some', Option.map_some', hn]
  · rw [hWrite_ne _ _ _ hcb]

lemma hWrite_map_function {h : Heap} {b : Nat} {tb : Task}
    (htb : h b = some tb) (tb' : Task) (hn : tb'.Function = tb.Function) :
    ∀ c, (hWrite h b tb' c).map Task.Function = (h c).map Task.Function := by
  intro c
  by_cases hcb : c = b
  · rw [hcb, hWrite_self, htb, Option.map_some', Option.map_some', hn]
  · rw [hWrite_ne _ _ _ hcb]

/-- C1: calling `TaskRegister` with an already-registered function
identity updates `Time` (interval_ms) and `State` (enabled) in place on
the existing node, leaves `TimePrev` (last_fire_tick) and `TimeError`
(drift_ms) untouched, returns the existing node's address as the handle
with the manager struct unchanged, and the registry stays well formed
over the SAME chain: its size is unchanged and it still holds exactly
one task per identity. -/
theorem taskRegister_existing_updates_in_place
    {h : Heap} {tm : TaskManager} {l : List Nat} {func b : Nat} {tb : Task}
    {timeMs : Nat} {st : Bool} {alloc : Option Nat} {fuel : Nat}
    (hv : Valid h tm l) (hb : b ∈ l) (htb : h b = some tb)
    (hfn : tb.Function = func) (hfuel : l.length ≤ fuel) :
    ∃ h', TaskRegister h tm func timeMs st alloc fuel = some (h', tm, some b) ∧
      h' b = some { tb with Time := timeMs, State := st } ∧
      (h' b).map Task.TimePrev = some tb.TimePrev ∧
      (h' b).map Task.TimeError = some tb.TimeError ∧
      Valid h' tm l := by
  set tb' : Task := { tb with Time := timeMs, State := st } with htb'
  refine ⟨hWrite h b tb', register_existing hv hb htb hfn hfuel,
    hWrite_self h b tb', ?_, ?_, ?_, ?_, ?_⟩
  · rw [hWrite_self, Option.map_some']
  · rw [hWrite_self, Option.map_some']
  · exact chainFrom_congr_next hv.chain
      (fun c _ => hWrite_map_next htb tb' rfl c)
  · exact hv.tailOk
  · intro c hcm d hdm u v hcu hdv hf
    have hcf : (h c).map Task.Function = some u.Function := by
      rw [← hWrite_map_function htb tb' rfl c, hcu, Option.map_some']
    have hdf : (h d).map Task.Function = some v.Function := by
      rw [← hWrite_map_function htb tb' rfl d, hdv, Option.map_some']
    obtain ⟨u0, hu0, hu0f⟩ := Option.map_eq_some'.mp hcf
    obtain ⟨v0, hv0, hv0f⟩ := Option.map_eq_some'.mp hdf
    exact hv.uniq c hcm d hdm u0 v0 hu0 hv0 (by rw [hu0f, hv0f, hf])

/-- C10: on re-registration of an existing identity, only that node's
`Time` and `State` fields are written: its `TimeCost` and `Next` are
unchanged, every other heap address is untouched, and the chain —
membership and order of the registry's sequence — is unchanged. -/
theorem taskRegister_existing_writes_only_time_state
    {h : Heap} {tm : TaskManager} {l : List Nat} {func b : Nat} {tb : Task}
    {timeMs : Nat} {st : Bool} {alloc : Option Nat} {fuel : Nat}
    (hv : Valid h tm l) (hb : b ∈ l) (htb : h b = some tb)
    (hfn : tb.Function = func) (hfuel : l.length ≤ fuel) :
    ∃ h', TaskRegister h tm func timeMs st alloc fuel = some (h', tm, some b) ∧
      (h' b).map Task.TimeCost = some tb.TimeCost ∧
      (h' b).map Task.Next = some tb.Next ∧
      (∀ c, c ≠ b → h' c = h c) ∧
      chainFrom h' tm.Head l.length = some l := by
  set tb' : Task := { tb with Time := timeMs, State := st } with htb'
  refine ⟨hWrite h b tb', register_existing hv hb htb hfn hfuel, ?_, ?_,
    fun c hcb => hWrite_ne h b tb' hcb, ?_⟩
  · rw [hWrite_self, Option.map_some']
  · rw [hWrite_self, Option.map_some']
  · exact chainFrom_congr_next hv.chain
      (fun c _ => hWrite_map_next htb tb' rfl c)

/-- C8: registering a not-yet-registered identity (with allocation
succeeding at a fresh address `a`) creates a node whose `Function`,
`Time` and `State` equal the arguments and whose `TimePrev`
(last_fire_tick), `TimeCost` (last_cost_ms) and `TimeError` (drift_ms)
are all 0, appends it at the end of the sequence (the updated manager's
chain is the old chain plus `a` at the back, and its tail points to
`a`), and returns its handle. -/
theorem taskRegister_fresh_initialises_and_appends
    {h : Heap} {tm : TaskManager} {l : List Nat} {func timeMs : Nat}
    {st : Bool} {a fuel : Nat}
    (hv : Valid h tm l)
    (hno : ∀ b ∈ l, ∀ t, h b = some t → t.Function ≠ func)
    (hfresh : h a = none) (hfuel : l.length ≤ fuel) :
    ∃ h' tm' t', TaskRegister h tm func timeMs st (some a) fuel =
        some (h', tm', some a) ∧
      h' a = some t' ∧ t'.Function = func ∧ t'.Time = timeMs ∧
      t'.State = st ∧ t'.TimePrev = 0 ∧ t'.TimeCost = 0 ∧ t'.TimeError = 0 ∧
      tm'.Tail = some a ∧
      chainFrom h' tm'.Head (l.length + 1) = some (l ++ [a]) := by
  cases l with
  | nil =>
    rw [register_fresh_empty hv]
    refine ⟨_, _, freshTask func timeMs st, rfl, hWrite_self h a _,
      rfl, rfl, rfl, rfl, rfl, rfl, rfl, ?_⟩
    show chainFrom (hWrite h a (freshTask func timeMs st)) (some a) (0 + 1)
      = some ([] ++ [a])
    rw [chainFrom_cons _ a (freshTask func timeMs st) 0 (hWrite_self h a _)]
    rfl
  | cons hd l'' =>
    have hne : hd :: l'' ≠ [] := List.cons_ne_nil hd l''
    have hlast := List.getLast?_eq_getLast_of_ne_nil hne
    set tl := (hd :: l'').getLast hne with htl
    have htlm : tl ∈ hd :: l'' := List.getLast_mem hne
    obtain ⟨tt, htt⟩ := chainFrom_mem_heap hv.chain tl htlm
    have hatl : a ≠ tl := fun he => by
      rw [he, htt] at hfresh; exact Option.noConfusion hfresh
    rw [register_fresh_cons hv hne hno hfresh hfuel hlast htt]
    refine ⟨_, _, freshTask func timeMs st, rfl, ?_,
      rfl, rfl, rfl, rfl, rfl, rfl, rfl, ?_⟩
    · rw [hWrite_ne _ _ _ hatl, hWrite_self]
    · rw [show ({ tm with Tail := some a } : TaskManager).Head
          = tm.Head from rfl]
      exact chainFrom_snoc hv.chain hne hlast hfresh htt rfl

/-- C2, counterexample: registering with `interval_ms = 0` on an empty
registry does NOT fail and does alter the registry: a handle (address 1)
is returned, the resulting chain holds one node, and that node is a
fully initialised task with `Time = 0`. -/
theorem taskRegister_zero_interval_accepted_concrete :
    (TaskRegister hEmpty tm0 5 0 true (some 1) 5).map
      (fun r => (r.2.2, chainFrom r.1 r.2.1.Head 1, r.1 1)) =
      some (some 1, some [1], some (freshTask 5 0 true)) := by decide

/-- C2, amended: `TaskRegister` performs no interval validation.  An
`interval_ms` of 0 (the interval parameter is unsigned, so negative
values cannot be passed at all) is accepted exactly like any other
value: for a fresh identity a node with `Time = 0` is created and
handed back. -/
theorem taskRegister_no_interval_validation
    {h : Heap} {tm : TaskManager} {l : List Nat} {func : Nat}
    {st : Bool} {a fuel : Nat}
    (hv : Valid h tm l)
    (hno : ∀ b ∈ l, ∀ t, h b = some t → t.Function ≠ func)
    (hfresh : h a = none) (hfuel : l.length ≤ fuel) :
    ∃ h' tm', TaskRegister h tm func 0 st (some a) fuel =
        some (h', tm', some a) ∧ h' a = some (freshTask func 0 st) := by
  cases l with
  | nil =>
    rw [register_fresh_empty hv]
    exact ⟨_, _, rfl, hWrite_self h a _⟩
  | cons hd l'' =>
    have hne : hd :: l'' ≠ [] := List.cons_ne_nil hd l''
    have hlast := List.getLast?_eq_getLast_of_ne_nil hne
    obtain ⟨tt, htt⟩ :=
      chainFrom_mem_heap hv.chain ((hd :: l'').getLast hne)
        (List.getLast_mem hne)
    have hatl : a ≠ (hd :: l'').getLast hne := fun he => by
      rw [he, htt] at hfresh; exact Option.noConfusion hfresh
    rw [register_fresh_cons hv hne hno hfresh hfuel hlast htt]
    exact ⟨_, _, rfl, by rw [hWrite_ne _ _ _ hatl, hWrite_self]⟩

/-- C7: when allocation cannot be satisfied during a fresh registration,
`TaskRegister` returns a NULL handle and both the heap and the manager
struct are returned exactly as they were: the registry is unchanged. -/
theorem taskRegister_alloc_failure_leaves_registry_unchanged
    {h : Heap} {tm : TaskManager} {l : List Nat} {func timeMs : Nat}
    {st : Bool} {fuel : Nat}
    (hv : Valid h tm l)
    (hno : ∀ b ∈ l, ∀ t, h b = some t → t.Function ≠ func)
    (hfuel : l.length ≤ fuel) :
    TaskRegister h tm func timeMs st none fuel = some (h, tm, none) :=
  register_oom hv hno hfuel

/-- C5, counterexample: on a NON-empty registry the freshly registered
task IS reachable from the caller's (stale) registry value.  Registering
identity 7 into the one-task registry `tm1` mutates the heap node the
caller's `Tail` points at, so `TaskFind` with the caller's unchanged
struct finds the new task at address 2 — the claim predicted not-found
for every registry. -/
theorem taskRegister_new_task_reachable_from_caller :
    (TaskRegister heap1 tm1 7 50 true (some 2) 5).map
      (fun r => TaskFind r.1 tm1 7 5) = some (some (some 2)) := by decide

/-- C5, amended: the manager struct is passed by value, so the caller's
`Head` and `Tail` fields never change; but only for an EMPTY registry is
the new node unreachable from the caller's value (`find` not-found).
For a non-empty registry the append writes through the heap node the
caller's tail points at, so the new task becomes reachable from the
caller's stale struct and `find` with the caller's value returns its
handle. -/
theorem taskRegister_caller_visibility_depends_on_emptiness
    {h : Heap} {tm : TaskManager} {l : List Nat} {func timeMs : Nat}
    {st : Bool} {a fuel : Nat}
    (hv : Valid h tm l)
    (hno : ∀ b ∈ l, ∀ t, h b = some t → t.Function ≠ func)
    (hfresh : h a = none) (hfuel : l.length ≤ fuel) :
    ∃ h' tm', TaskRegister h tm func timeMs st (some a) fuel =
        some (h', tm', some a) ∧
      (l = [] → chainFrom h' tm.Head l.length = some [] ∧
        TaskFind h' tm func (l.length + 1) = some none) ∧
      (l ≠ [] → chainFrom h' tm.Head (l.length + 1) = some (l ++ [a]) ∧
        TaskFind h' tm func (l.length + 1) = some (some a)) := by
  cases l with
  | nil =>
    rw [register_fresh_empty hv]
    have hhead : tm.Head = none := chainFrom_nil hv.chain
    refine ⟨_, _, rfl, fun _ => ⟨?_, ?_⟩, fun hne => absurd rfl hne⟩
    · rw [hhead]; exact chainFrom_none _ _
    · unfold TaskFind; rw [hhead]; exact findLoop_none _ _ _
  | cons hd l'' =>
    have hne : hd :: l'' ≠ [] := List.cons_ne_nil hd l''
    have hlast := List.getLast?_eq_getLast_of_ne_nil hne
    set tl := (hd :: l'').getLast hne with htldef
    have htlm : tl ∈ hd :: l'' := List.getLast_mem hne
    obtain ⟨tt, htt⟩ := chainFrom_mem_heap hv.chain tl htlm
    have hatl : a ≠ tl := fun he => by
      rw [he, htt] at hfresh; exact Option.noConfusion hfresh
    rw [register_fresh_cons hv hne hno hfresh hfuel hlast htt]
    have hchain : chainFrom
        (hWrite (hWrite h a (freshTask func timeMs st)) tl
          { tt with Next := some a }) tm.Head ((hd :: l'').length + 1) =
        some ((hd :: l'') ++ [a]) :=
      chainFrom_snoc hv.chain hne hlast hfresh htt rfl
    refine ⟨_, _, rfl, fun he => absurd he hne, fun _ => ⟨hchain, ?_⟩⟩
    have hha : hWrite (hWrite h a (freshTask func timeMs st)) tl
        { tt with Next := some a } a = some (freshTask func timeMs st) := by
      rw [hWrite_ne _ _ _ hatl, hWrite_self]
    refine findLoop_found hchain (by simp) hha rfl ?_
    intro c hcm u hu huf
    rcases List.mem_append.mp hcm with hcl | hca
    · exfalso
      by_cases hctl : c = tl
      · rw [hctl, hWrite_self] at hu
        have hut : ({ tt with Next := some a } : Task) = u := Option.some.inj hu
        rw [← hut] at huf
        exact hno tl htlm tt htt huf
      · have hca' : c ≠ a := fun he => by
          obtain ⟨tc, htc⟩ := chainFrom_mem_heap hv.chain c hcl
          rw [he, hfresh] at htc
          exact Option.noConfusion htc
        rw [hWrite_ne _ _ _ hctl, hWrite_ne _ _ _ hca'] at hu
        exact hno c hcl u hu huf
    · simpa using hca

/-- C3, counterexample: the claim says teardown of every non-empty
registry reads a freed node's successor link.  On the concrete one-task
registry the faithful `ManagerDelete` — which by construction returns
`none` the moment any unallocated (freed) address is dereferenced —
completes successfully and frees the node, while the free-then-read
traversal the spec describes (`ManagerDeleteSpecClaim`) faults
immediately. -/
theorem managerDelete_no_use_after_free_concrete :
    (ManagerDelete heap1 tm1.Head 3).map (fun h' => (h' 1, h' 2)) =
      some (none, none) ∧
    ManagerDeleteSpecClaim heap1 tm1.Head 3 = none :=
  ⟨by decide, by rfl⟩

/-- C3, amended: `ManagerDelete` captures the successor (`now =
now->Next`) BEFORE freeing the current node (`free(now_del)`), so on
every well-formed registry the teardown completes without ever reading a
freed node's `Next`: it frees exactly the chain's nodes and touches
nothing else.  A traversal that freed first and then read the successor
(as the spec describes the code) would fault on the first node of any
non-empty registry. -/
theorem managerDelete_captures_successor_before_free
    {h : Heap} {tm : TaskManager} {l : List Nat}
    (hc : chainFrom h tm.Head l.length = some l) :
    ∃ h', ManagerDelete h tm.Head l.length = some h' ∧
      (∀ b ∈ l, h' b = none) ∧ (∀ c, c ∉ l → h' c = h c) ∧
      (l ≠ [] → ManagerDeleteSpecClaim h tm.Head l.length = none) := by
  obtain ⟨h', hdel, hfreed, hkept⟩ := ManagerDelete_ok hc
  refine ⟨h', hdel, hfreed, hkept, ?_⟩
  intro hne
  cases l with
  | nil => exact absurd rfl hne
  | cons hd l'' =>
    cases hh : tm.Head with
    | none =>
      rw [hh, chainFrom_none] at hc
      exact absurd (by simpa using hc.symm) hne
    | some a =>
      exact ManagerDeleteSpecClaim_cons h a l''.length

/-- C9: on a registry whose task sequence is a finite, NULL-terminated
(acyclic) chain, the three unbounded `while(1)` traversals terminate:
teardown (`ManagerDelete`), lookup (`TaskFind`) and predecessor search
(`GetPrev`) all complete — with fuel equal to the chain length — rather
than running out or faulting. -/
theorem traversal_loops_terminate
    {h : Heap} {tm : TaskManager} {l : List Nat}
    (hc : chainFrom h tm.Head l.length = some l) (func tgt : Nat) :
    (∃ h', ManagerDelete h tm.Head l.length = some h') ∧
    (∃ r, TaskFind h tm func l.length = some r) ∧
    (∃ r, GetPrev h tm tgt l.length = some r) := by
  obtain ⟨h', hdel, _, _⟩ := ManagerDelete_ok hc
  exact ⟨⟨h', hdel⟩, findLoop_total hc, prevLoop_total hc⟩

/-- C6: the body of `TaskLogout` in the C source is empty, so it removes
nothing: the heap is untouched and a subsequent `TaskFind` for the
logged-out identity still finds the task — contradicting both the
claim and the function's own doc comment (which promises removal and a
true/false result). -/
theorem taskLogout_empty_body_removes_nothing :
    TaskLogout heap1 5 = heap1 ∧
    TaskFind (TaskLogout heap1 5) tm1 5 5 = some (some 1) :=
  ⟨rfl, by decide⟩

/-- C4: for an enabled task the dispatcher fires exactly when
`elapsed + drift_ms >= interval_ms` with `elapsed = now_tick -
last_fire_tick` (first two conjuncts); concretely, the task registered
with interval 100 and enabled: `run` leaves it untouched at tick 0 and
tick 50, fires it exactly once at tick 100 (a second `run` at tick 100
changes nothing), leaves it untouched at ticks 150 and 199, and fires it
again at tick 200. -/
theorem dispatcher_fires_iff_due (t : Task) (now cost : Nat)
    (hen : t.State = true) :
    ((t.Time : Int) ≤ ((now : Int) - (t.TimePrev : Int)) + t.TimeError →
      stepTask t now cost =
        { t with
          TimeCost := cost
          TimeError := clamp (((now : Int) - (t.TimePrev : Int)) - (t.Time : Int))
            (-(t.Time : Int)) (t.Time : Int)
          TimePrev := now }) ∧
    (((now : Int) - (t.TimePrev : Int)) + t.TimeError < (t.Time : Int) →
      stepTask t now cost = t) ∧
    (run heap1 (fun _ => 0) 0 tm1.Head 2).map (fun h => h 1) =
      some (some task1) ∧
    (run heap1 (fun _ => 0) 50 tm1.Head 2).map (fun h => h 1) =
      some (some task1) ∧
    (run heap1 (fun _ => 0) 100 tm1.Head 2).map (fun h => h 1) =
      some (some { task1 with TimePrev := 100 }) ∧
    (run (hWrite heap1 1 { task1 with TimePrev := 100 }) (fun _ => 0) 100
        tm1.Head 2).map (fun h => h 1) =
      some (some { task1 with TimePrev := 100 }) ∧
    (run (hWrite heap1 1 { task1 with TimePrev := 100 }) (fun _ => 0) 150
        tm1.Head 2).map (fun h => h 1) =
      some (some { task1 with TimePrev := 100 }) ∧
    (run (hWrite heap1 1 { task1 with TimePrev := 100 }) (fun _ => 0) 199
        tm1.Head 2).map (fun h => h 1) =
      some (some { task1 with TimePrev := 100 }) ∧
    (run (hWrite heap1 1 { task1 with TimePrev := 100 }) (fun _ => 0) 200
        tm1.Head 2).map (fun h => h 1) =
      some (some { task1 with TimePrev := 200 }) := by
  refine ⟨?_, ?_, by decide, by decide, by decide, by decide, by decide,
    by decide, by decide⟩
  · intro hdue
    unfold stepTask
    rw [if_pos hen, if_pos hdue]
  · intro hlt
    unfold stepTask
    rw [if_pos hen, if_neg (not_le.mpr hlt)]

/-! Concrete witnesses instantiating the hypothesis-bearing theorems. -/

lemma heap1_no_func7 : ∀ b ∈ [1], ∀ t : Task, heap1 b = some t →
    t.Function ≠ 7 := by
  intro b hb t ht
  have hb1 : b = 1 := by simpa using hb
  rw [hb1] at ht
  have h1 : some task1 = some t := by rw [← ht]; rfl
  rw [← Option.some.inj h1]
  decide

theorem taskRegister_existing_updates_in_place_witness :
    ∃ h', TaskRegister heap1 tm1 5 250 false none 1 = some (h', tm1, some 1) ∧
      h' 1 = some { task1 with Time := 250, State := false } ∧
      (h' 1).map Task.TimePrev = some task1.TimePrev ∧
      (h' 1).map Task.TimeError = some task1.TimeError ∧
      Valid h' tm1 [1] :=
  taskRegister_existing_updates_in_place valid_heap1 (by decide) (by decide)
    (by decide) (by decide)

theorem taskRegister_existing_writes_only_time_state_witness :
    ∃ h', TaskRegister heap1 tm1 5 350 true (some 9) 1 =
        some (h', tm1, some 1) ∧
      (h' 1).map Task.TimeCost = some task1.TimeCost ∧
      (h' 1).map Task.Next = some task1.Next ∧
      (∀ c, c ≠ 1 → h' c = heap1 c) ∧
      chainFrom h' tm1.Head [1].length = some [1] :=
  taskRegister_existing_writes_only_time_state valid_heap1 (by decide)
    (by decide) (by decide) (by decide)

theorem taskRegister_no_interval_validation_witness :
    ∃ h' tm', TaskRegister hEmpty tm0 3 0 true (some 1) 0 =
        some (h', tm', some 1) ∧ h' 1 = some (freshTask 3 0 true) :=
  taskRegister_no_interval_validation valid_empty (by simp) (by decide)
    (by decide)

theorem taskRegister_alloc_failure_leaves_registry_unchanged_witness :
    TaskRegister heap1 tm1 7 40 true none 1 = some (heap1, tm1, none) :=
  taskRegister_alloc_failure_leaves_registry_unchanged valid_heap1
    heap1_no_func7 (by decide)

theorem taskRegister_fresh_initialises_and_appends_witness :
    ∃ h' tm' t', TaskRegister heap1 tm1 7 60 true (some 2) 1 =
        some (h', tm', some 2) ∧
      h' 2 = some t' ∧ t'.Function = 7 ∧ t'.Time = 60 ∧
      t'.State = true ∧ t'.TimePrev = 0 ∧ t'.TimeCost = 0 ∧ t'.TimeError = 0 ∧
      tm'.Tail = some 2 ∧
      chainFrom h' tm'.Head ([1].length + 1) = some ([1] ++ [2]) :=
  taskRegister_fresh_initialises_and_appends valid_heap1 heap1_no_func7
    (by decide) (by decide)

theorem taskRegister_caller_visibility_depends_on_emptiness_witness :
    ∃ h' tm', TaskRegister heap1 tm1 7 60 true (some 2) 1 =
        some (h', tm', some 2) ∧
      (([1] : List Nat) = [] → chainFrom h' tm1.Head [1].length = some [] ∧
        TaskFind h' tm1 7 ([1].length + 1) = some none) ∧
      (([1] : List Nat) ≠ [] →
        chainFrom h' tm1.Head ([1].length + 1) = some ([1] ++ [2]) ∧
        TaskFind h' tm1 7 ([1].length + 1) = some (some 2)) :=
  taskRegister_caller_visibility_depends_on_emptiness valid_heap1
    heap1_no_func7 (by decide) (by decide)

theorem managerDelete_captures_successor_before_free_witness :
    ∃ h', ManagerDelete heap1 tm1.Head [1].length = some h' ∧
      (∀ b ∈ [1], h' b = none) ∧ (∀ c, c ∉ [1] → h' c = heap1 c) ∧
      (([1] : List Nat) ≠ [] →
        ManagerDeleteSpecClaim heap1 tm1.Head [1].length = none) :=
  managerDelete_captures_successor_before_free (by decide)

theorem traversal_loops_terminate_witness :
    (∃ h', ManagerDelete heap1 tm1.Head [1].length = some h') ∧
    (∃ r, TaskFind heap1 tm1 9 [1].length = some r) ∧
    (∃ r, GetPrev heap1 tm1 4 [1].length = some r) :=
  traversal_loops_terminate (by decide) 9 4

theorem dispatcher_fires_iff_due_witness :
    stepTask task1 100 0 =
      { task1 with
        TimeCost := 0
        TimeError := clamp (((100 : Int) - (task1.TimePrev : Int)) -
          (task1.Time : Int)) (-(task1.Time : Int)) (task1.Time : Int)
        TimePrev := 100 } :=
  (dispatcher_fires_iff_due task1 100 0 rfl).1 (by decide)

end MTM
